import Mathlib

/-!
Verification development for the DatadogFormattingLayer crate: a shallow
embedding of the event-to-record formatting pipeline (src/formatting.rs,
src/layer.rs, src/fields.rs, src/datadog_ids.rs) together with theorems
settling the specification claims about it.
-/

/-! ## Data model: fields (src/fields.rs) -/

/-- `FieldPair` from src/fields.rs: a named, pre-stringified attribute. -/
structure FieldPair where
  name : String
  value : String
deriving DecidableEq, Repr

/-- `FieldStore` from src/fields.rs: the per-span store of field pairs. -/
structure FieldStore where
  fields : List FieldPair
deriving DecidableEq, Repr

/-- Lexicographic comparison of character lists by code point, mirroring
Rust's `Ord` instance for `String` (byte-wise lexicographic order; on the
values at play both orders coincide with code-point order). -/
def charListLe : List Char → List Char → Bool
  | [], _ => true
  | _ :: _, [] => false
  | a :: as, b :: bs =>
    if a.toNat < b.toNat then true
    else if b.toNat < a.toNat then false
    else charListLe as bs

/-- Rust's `String` ordering, `a ≤ b` lexicographically. -/
def strLe (a b : String) : Bool := charListLe a.data b.data

/-- The comparison used by `self.fields.sort()` in `DatadogLog::format`:
the `Ord` impl for `FieldPair` (src/fields.rs lines 25-29) compares by
`name` alone. -/
def fieldLe (a b : FieldPair) : Bool := strLe a.name b.name

/-- Rust's `str::trim_matches('\"')` as used in src/formatting.rs line 35
and src/layer.rs line 72: removes every leading and every trailing double
quote character, leaving interior quotes untouched. -/
def trimMatchesQuote (s : String) : String :=
  ⟨((s.data.dropWhile (fun c => c = '"')).reverse.dropWhile (fun c => c = '"')).reverse⟩

/-! ## JSON values and the serde_json map

`DatadogLog::format` builds a `serde_json::Map<String, Value>` by repeated
`insert`. Only string and unsigned-integer values are ever inserted. -/

/-- The subset of `serde_json::Value` the formatter uses. -/
inductive JsonValue where
  | str (s : String)
  | num (n : Nat)
deriving DecidableEq, Repr

/-- Modelled from the spec: `serde_json::Map::insert` with insertion-order
preservation (§4.5 fixes the emitted key order to the insertion order; the
manifest enabling serde_json's order-preserving map is not under src/).
Inserting an existing key replaces its value in place, keeping the key's
original position; a new key is appended at the end. -/
def mapInsert (m : List (String × JsonValue)) (k : String) (v : JsonValue) :
    List (String × JsonValue) :=
  match m with
  | [] => [(k, v)]
  | (k', v') :: rest =>
    if k' = k then (k', v) :: rest else (k', v') :: mapInsert rest k v

/-- Lookup in the modelled serde_json map. -/
def mapGet (m : List (String × JsonValue)) (k : String) : Option JsonValue :=
  (m.find? (fun e => e.1 = k)).map (·.2)

/-! ## The record formatter (src/formatting.rs) -/

/-- `DatadogLog` from src/formatting.rs lines 12-19. The `timestamp` field
holds the already-rendered RFC3339 text (`to_rfc3339`), `level` the
rendered level, and `datadogIds` the optional `(DatadogTraceId, DatadogSpanId)`
pair as raw numbers. -/
structure DatadogLog where
  timestamp : String
  level : String
  message : String
  fields : List FieldPair
  target : String
  datadogIds : Option (Nat × Nat)

/-- The text appended to the message for one field in
`DatadogLog::format` line 37: `write!(message, " {}={}", field.name, value)`
with `value = field.value.trim_matches('\"')`. -/
def fieldSuffix (f : FieldPair) : String :=
  " " ++ f.name ++ "=" ++ trimMatchesQuote f.value

/-- One iteration of the `for field in &self.fields` loop of
`DatadogLog::format` (src/formatting.rs lines 32-40), acting on the pair
(message so far, map so far). Fields named `"message"` are skipped. -/
def formatFold (acc : String × List (String × JsonValue)) (field : FieldPair) :
    String × List (String × JsonValue) :=
  if field.name ≠ "message" then
    let value := trimMatchesQuote field.value
    (acc.1 ++ " " ++ field.name ++ "=" ++ value,
     mapInsert acc.2 ("fields." ++ field.name) (JsonValue.str value))
  else acc

/-- `DatadogLog::format` (src/formatting.rs lines 22-51), modelled up to the
construction of the ordered JSON object (the final `serde_json::to_string`
serialization step is modelled separately, see `onEventSerialized`). -/
def DatadogLog.format (self : DatadogLog) : List (String × JsonValue) :=
  let log := mapInsert [] "timestamp" (JsonValue.str self.timestamp)
  let log := mapInsert log "level" (JsonValue.str self.level)
  let sorted := self.fields.mergeSort fieldLe
  let ml := sorted.foldl formatFold (self.message, log)
  let log := mapInsert ml.2 "message" (JsonValue.str ml.1)
  let log := mapInsert log "target" (JsonValue.str self.target)
  match self.datadogIds with
  | some ids => mapInsert (mapInsert log "dd.trace_id" (JsonValue.num ids.1))
      "dd.span_id" (JsonValue.num ids.2)
  | none => log

/-- The sorted sequence of non-message fields that drives both the message
inlining and the `fields.<name>` entries: the stable sort of
`DatadogLog::format` line 28 restricted to fields not named `"message"`. -/
def sortedNonMessage (fields : List FieldPair) : List FieldPair :=
  (fields.mergeSort fieldLe).filter (fun f => f.name ≠ "message")

/-- Concatenation of the per-field message suffixes, in list order. -/
def suffixConcat (l : List FieldPair) : String :=
  l.foldr (fun f acc => fieldSuffix f ++ acc) ""

/-- Key bookkeeping of `mapInsert`: an existing key leaves the key sequence
unchanged, a new key is appended. -/
def insertKeys (ks : List String) (k : String) : List String :=
  if k ∈ ks then ks else ks ++ [k]

/-- First-occurrence deduplication of a key sequence, describing the key
order produced by repeated `mapInsert`. -/
def dedupFirst (ks : List String) : List String :=
  ks.foldl insertKeys []

/-! ## Correlation identity mapper (src/datadog_ids.rs) -/

/-- Big-endian byte decomposition of a natural number into `w` bytes,
most significant first: Rust's `u128::to_be_bytes` / `u64::to_be_bytes`. -/
def toBytesBE : Nat → Nat → List Nat
  | 0, _ => []
  | w + 1, n => toBytesBE w (n / 256) ++ [n % 256]

/-- Big-endian reinterpretation of a byte sequence as an unsigned integer:
Rust's `u64::from_be_bytes`. -/
def fromBytesBE (l : List Nat) : Nat :=
  l.foldl (fun acc b => acc * 256 + b) 0

/-- `DatadogTraceId` from src/datadog_ids.rs line 8 (a `u64` newtype). -/
structure DatadogTraceId where
  val : Nat
deriving DecidableEq

/-- `DatadogSpanId` from src/datadog_ids.rs line 33 (a `u64` newtype). -/
structure DatadogSpanId where
  val : Nat
deriving DecidableEq

/-- The `From TraceId for DatadogTraceId` conversion
(src/datadog_ids.rs lines 17-28): `value.to_bytes()` yields the 16
big-endian bytes of the 128-bit trace id, `bytes.get(8..16)` slices bytes
8 to 16, and `u64::from_be_bytes` reads them back big-endian. -/
def DatadogTraceId.ofTraceId (t : Nat) : DatadogTraceId :=
  ⟨fromBytesBE (((toBytesBE 16 t).drop 8).take 8)⟩

/-- The `From SpanId for DatadogSpanId` conversion
(src/datadog_ids.rs lines 35-39): `u64::from_be_bytes(value.to_bytes())`. -/
def DatadogSpanId.ofSpanId (s : Nat) : DatadogSpanId :=
  ⟨fromBytesBE (toBytesBE 8 s)⟩

/-- opentelemetry's `SpanId::INVALID` sentinel, the all-zero span id. -/
def spanIdInvalid : Nat := 0

/-- The tracing data the mapper reads from the current span's extensions:
`OtelData` with `parent_cx.span().span_context().trace_id()` (a 128-bit
value) and `builder.span_id` (an optional 64-bit value). -/
structure OtelData where
  parentCxTraceId : Nat
  builderSpanId : Option Nat

/-- `read_from_context` (src/datadog_ids.rs lines 41-55). The argument
models `ctx.lookup_current()` (`none` when no span is current) composed
with `span_ref.extensions().get::<OtelData>()` (`none` when no tracing
data is attached to the current span). -/
def read_from_context (lookupCurrent : Option (Option OtelData)) :
    Option DatadogTraceId × Option DatadogSpanId :=
  let ids : Option (DatadogTraceId × DatadogSpanId) :=
    lookupCurrent.bind fun extensions =>
      extensions.map fun o =>
        (DatadogTraceId.ofTraceId o.parentCxTraceId,
         DatadogSpanId.ofSpanId (o.builderSpanId.getD spanIdInvalid))
  match ids with
  | none => (none, none)
  | some ids => (some ids.1, some ids.2)

/-- Modelled from the spec: the words of §4.4, a 128-bit trace identifier
reduced by taking its most significant 8 bytes interpreted as a big-endian
64-bit unsigned integer; kept for comparison with the code's
`DatadogTraceId.ofTraceId`. -/
def specTraceIdMostSignificant8 (t : Nat) : Nat :=
  fromBytesBE ((toBytesBE 16 t).take 8)

/-! ## Layer callbacks (src/layer.rs) -/

/-- `on_new_span` (src/layer.rs lines 33-45), restricted to the
`FieldStore` slot of the span's extensions: the store is inserted only
when `extensions.get_mut::<FieldStore>().is_none()`. -/
def on_new_span (extensions : Option FieldStore) (fields : List FieldPair) :
    Option FieldStore :=
  if extensions.isNone then some { fields := fields } else extensions

/-- `from_spans` (src/fields.rs lines 53-71). The argument models
`ctx.event_scope(event)` (`none` when the event has no scope chain);
`scopes` is the `Scope::from_root` enumeration, root scope first, each
element being the `FieldStore` read from that span's extensions. -/
def from_spans (eventScope : Option (List FieldStore)) : List FieldPair :=
  match eventScope with
  | none => []
  | some scopes => scopes.flatMap FieldStore.fields

/-- The merged attribute sequence of `on_event` (src/layer.rs lines 59-63):
`Vec::default().into_iter().chain(fields::from_spans(&ctx, event))
.chain(event_fields).collect()`. -/
def all_fields (eventScope : Option (List FieldStore)) (eventFields : List FieldPair) :
    List FieldPair :=
  ([] : List FieldPair) ++ from_spans eventScope ++ eventFields

/-- Modelled from the spec: the §3 invariant's merged sequence, the
concatenation of every ancestor scope's stored attributes (root to
current) followed by the event's own attributes; kept for comparison with
the code's `all_fields`. -/
def specMergedAttributes (ancestorStores : List (List FieldPair))
    (eventAttributes : List FieldPair) : List FieldPair :=
  ancestorStores.flatten ++ eventAttributes

/-- Lines 91-94 of src/layer.rs: `serde_json::to_string(&formatted_event)`
followed by `.unwrap_or_else` substituting the static diagnostic string,
then `serialized_event.push` of the newline before the sink write. The
argument is the serializer's outcome. -/
def onEventSerialized (result : Except String String) : String :=
  (match result with
   | .ok s => s
   | .error _ => "Failed to serialize an event to json") ++ "\n"

/-! ## Helper lemmas: the comparison -/

theorem charListLe_cons_iff (x y : Char) (as bs : List Char) :
    charListLe (x :: as) (y :: bs) = true ↔
      (x.toNat < y.toNat ∨ (x.toNat = y.toNat ∧ charListLe as bs = true)) := by
  simp only [charListLe]
  split
  · rename_i h
    simp [h]
  · rename_i h1
    split
    · rename_i h2
      constructor
      · intro h
        simp at h
      · intro h
        rcases h with h | ⟨h, _⟩ <;> omega
    · rename_i h2
      have hxy : x.toNat = y.toNat := by omega
      constructor
      · intro h
        exact Or.inr ⟨hxy, h⟩
      · intro h
        rcases h with h | ⟨_, h⟩
        · omega
        · exact h

theorem charListLe_refl : ∀ l : List Char, charListLe l l = true
  | [] => rfl
  | _ :: as => by
    rw [charListLe_cons_iff]
    exact Or.inr ⟨rfl, charListLe_refl as⟩

theorem charListLe_trans : ∀ a b c : List Char,
    charListLe a b = true → charListLe b c = true → charListLe a c = true
  | [], _, _, _, _ => rfl
  | _ :: _, [], _, hab, _ => by simp [charListLe] at hab
  | _ :: _, _ :: _, [], _, hbc => by simp [charListLe] at hbc
  | x :: as, y :: bs, z :: cs, hab, hbc => by
    rw [charListLe_cons_iff] at hab hbc ⊢
    rcases hab with h1 | ⟨h1, h1'⟩ <;> rcases hbc with h2 | ⟨h2, h2'⟩
    · exact Or.inl (by omega)
    · exact Or.inl (by omega)
    · exact Or.inl (by omega)
    · exact Or.inr ⟨by omega, charListLe_trans as bs cs h1' h2'⟩

theorem charListLe_total : ∀ a b : List Char,
    (charListLe a b || charListLe b a) = true
  | [], _ => by simp [charListLe]
  | _ :: _, [] => by simp [charListLe]
  | x :: as, y :: bs => by
    simp only [Bool.or_eq_true]
    rw [charListLe_cons_iff, charListLe_cons_iff]
    rcases Nat.lt_trichotomy x.toNat y.toNat with h | h | h
    · exact Or.inl (Or.inl h)
    · rcases Bool.or_eq_true _ _ |>.mp (charListLe_total as bs) with h' | h'
      · exact Or.inl (Or.inr ⟨h, h'⟩)
      · exact Or.inr (Or.inr ⟨h.symm, h'⟩)
    · exact Or.inr (Or.inl h)

theorem strLe_refl (s : String) : strLe s s = true :=
  charListLe_refl s.data

theorem fieldLe_trans (a b c : FieldPair) :
    fieldLe a b = true → fieldLe b c = true → fieldLe a c = true :=
  charListLe_trans a.name.data b.name.data c.name.data

theorem fieldLe_total (a b : FieldPair) :
    (fieldLe a b || fieldLe b a) = true :=
  charListLe_total a.name.data b.name.data

/-! ## Helper lemmas: the insertion-ordered map -/

theorem map_fst_mapInsert (m : List (String × JsonValue)) (k : String) (v : JsonValue) :
    (mapInsert m k v).map Prod.fst = insertKeys (m.map Prod.fst) k := by
  induction m with
  | nil => simp [mapInsert, insertKeys]
  | cons e rest ih =>
    obtain ⟨k', v'⟩ := e
    by_cases h : k' = k
    · subst h
      simp [mapInsert, insertKeys]
    · simp only [mapInsert, if_neg h, List.map_cons, ih, insertKeys]
      by_cases hk : k ∈ rest.map Prod.fst
      · simp [hk, Ne.symm h]
      · simp [hk, Ne.symm h]

theorem mapGet_mapInsert_self (m : List (String × JsonValue)) (k : String) (v : JsonValue) :
    mapGet (mapInsert m k v) k = some v := by
  induction m with
  | nil => simp [mapInsert, mapGet, List.find?]
  | cons e rest ih =>
    obtain ⟨k', v'⟩ := e
    by_cases h : k' = k
    · subst h
      simp [mapInsert, mapGet, List.find?]
    · simp only [mapInsert, if_neg h]
      simpa [mapGet, List.find?, h] using ih

theorem mapGet_mapInsert_ne (m : List (String × JsonValue)) (k k' : String) (v : JsonValue)
    (h : k' ≠ k) : mapGet (mapInsert m k v) k' = mapGet m k' := by
  induction m with
  | nil => simp [mapInsert, mapGet, List.find?, Ne.symm h]
  | cons e rest ih =>
    obtain ⟨k'', v''⟩ := e
    by_cases hk : k'' = k
    · subst hk
      simp [mapInsert, mapGet, List.find?, Ne.symm h]
    · simp only [mapInsert, if_neg hk]
      by_cases hk' : k'' = k'
      · simp [mapGet, List.find?, hk']
      · simpa [mapGet, List.find?, hk'] using ih

theorem mapGet_eq_none_iff (m : List (String × JsonValue)) (k : String) :
    mapGet m k = none ↔ k ∉ m.map Prod.fst := by
  induction m with
  | nil => simp [mapGet, List.find?]
  | cons e rest ih =>
    obtain ⟨k', v'⟩ := e
    by_cases h : k' = k
    · subst h
      simp [mapGet, List.find?]
    · simpa [mapGet, List.find?, h, Ne.symm h] using ih

theorem insertKeys_of_not_mem {ks : List String} {k : String} (h : k ∉ ks) :
    insertKeys ks k = ks ++ [k] := by
  simp [insertKeys, h]

theorem mem_foldl_insertKeys (ks : List String) :
    ∀ (acc : List String) (k : String),
      k ∈ ks.foldl insertKeys acc ↔ k ∈ acc ∨ k ∈ ks := by
  induction ks with
  | nil => simp
  | cons k' rest ih =>
    intro acc k
    simp only [List.foldl_cons, ih, insertKeys]
    by_cases h : k' ∈ acc
    · simp only [if_pos h, List.mem_cons]
      constructor
      · rintro (hk | hk)
        · exact Or.inl hk
        · exact Or.inr (Or.inr hk)
      · rintro (hk | hk | hk)
        · exact Or.inl hk
        · exact Or.inl (hk ▸ h)
        · exact Or.inr hk
    · simp only [if_neg h, List.mem_append, List.mem_singleton, List.mem_cons]
      tauto

theorem foldl_insertKeys_append (ks : List String) :
    ∀ (acc0 acc1 : List String), (∀ k ∈ ks, k ∉ acc0) →
      ks.foldl insertKeys (acc0 ++ acc1) = acc0 ++ ks.foldl insertKeys acc1 := by
  induction ks with
  | nil => simp
  | cons k rest ih =>
    intro acc0 acc1 h
    have hk : k ∉ acc0 := h k (List.mem_cons_self k rest)
    have hrest : ∀ k' ∈ rest, k' ∉ acc0 := fun k' hk' => h k' (List.mem_cons_of_mem k hk')
    simp only [List.foldl_cons]
    by_cases hmem : k ∈ acc1
    · have h1 : insertKeys (acc0 ++ acc1) k = acc0 ++ acc1 := by
        simp [insertKeys, List.mem_append, hmem]
      have h2 : insertKeys acc1 k = acc1 := by
        simp [insertKeys, hmem]
      rw [h1, h2, ih acc0 acc1 hrest]
    · have h1 : insertKeys (acc0 ++ acc1) k = acc0 ++ (acc1 ++ [k]) := by
        simp [insertKeys, List.mem_append, hmem, hk]
      have h2 : insertKeys acc1 k = acc1 ++ [k] := by
        simp [insertKeys, hmem]
      rw [h1, h2, ih acc0 (acc1 ++ [k]) hrest]

theorem nodup_foldl_insertKeys (ks : List String) :
    ∀ acc : List String, acc.Nodup → (ks.foldl insertKeys acc).Nodup := by
  induction ks with
  | nil => exact fun acc h => h
  | cons k rest ih =>
    intro acc hacc
    simp only [List.foldl_cons]
    apply ih
    by_cases h : k ∈ acc
    · simpa [insertKeys, h] using hacc
    · rw [insertKeys_of_not_mem h]
      simp [List.nodup_append, hacc, h]

theorem dedupFirst_nodup (ks : List String) : (dedupFirst ks).Nodup :=
  nodup_foldl_insertKeys ks [] List.nodup_nil

theorem mem_dedupFirst (ks : List String) (k : String) :
    k ∈ dedupFirst ks ↔ k ∈ ks := by
  simp [dedupFirst, mem_foldl_insertKeys]

/-! ## Helper lemmas: the format loop -/

theorem foldl_formatFold_fst (l : List FieldPair) :
    ∀ (m : String) (g : List (String × JsonValue)),
      (l.foldl formatFold (m, g)).1 =
        m ++ suffixConcat (l.filter (fun f => f.name ≠ "message")) := by
  induction l with
  | nil => simp [suffixConcat, String.append_empty]
  | cons f rest ih =>
    intro m g
    by_cases h : f.name = "message"
    · have hstep : formatFold (m, g) f = (m, g) := by
        simp [formatFold, h]
      simp [List.foldl_cons, hstep, ih, List.filter_cons, h]
    · have hstep : formatFold (m, g) f =
          (m ++ " " ++ f.name ++ "=" ++ trimMatchesQuote f.value,
           mapInsert g ("fields." ++ f.name)
             (JsonValue.str (trimMatchesQuote f.value))) := by
        simp [formatFold, h]
      rw [List.foldl_cons, hstep, ih]
      have hfil : (f :: rest).filter (fun f => f.name ≠ "message") =
          f :: rest.filter (fun f => f.name ≠ "message") := by
        simp [List.filter_cons, h]
      rw [hfil]
      have hsc : suffixConcat (f :: rest.filter (fun f => f.name ≠ "message")) =
          fieldSuffix f ++ suffixConcat (rest.filter (fun f => f.name ≠ "message")) := rfl
      rw [hsc]
      simp [fieldSuffix, String.append_assoc]

theorem foldl_formatFold_snd (l : List FieldPair) :
    ∀ (m : String) (g : List (String × JsonValue)),
      ((l.foldl formatFold (m, g)).2).map Prod.fst =
        ((l.filter (fun f => f.name ≠ "message")).map
          (fun f => "fields." ++ f.name)).foldl insertKeys (g.map Prod.fst) := by
  induction l with
  | nil => simp
  | cons f rest ih =>
    intro m g
    by_cases h : f.name = "message"
    · have hstep : formatFold (m, g) f = (m, g) := by
        simp [formatFold, h]
      simp [List.foldl_cons, hstep, ih, List.filter_cons, h]
    · have hstep : formatFold (m, g) f =
          (m ++ " " ++ f.name ++ "=" ++ trimMatchesQuote f.value,
           mapInsert g ("fields." ++ f.name)
             (JsonValue.str (trimMatchesQuote f.value))) := by
        simp [formatFold, h]
      rw [List.foldl_cons, hstep, ih]
      have hfil : (f :: rest).filter (fun f => f.name ≠ "message") =
          f :: rest.filter (fun f => f.name ≠ "message") := by
        simp [List.filter_cons, h]
      rw [hfil, List.map_cons, List.foldl_cons, map_fst_mapInsert]

theorem foldl_formatFold_get_other (l : List FieldPair) :
    ∀ (m : String) (g : List (String × JsonValue)) (k : String),
      (∀ n : String, k ≠ "fields." ++ n) →
      mapGet (l.foldl formatFold (m, g)).2 k = mapGet g k := by
  induction l with
  | nil => intro m g k _; rfl
  | cons f rest ih =>
    intro m g k hk
    by_cases h : f.name = "message"
    · have hstep : formatFold (m, g) f = (m, g) := by
        simp [formatFold, h]
      rw [List.foldl_cons, hstep, ih _ _ _ hk]
    · have hstep : formatFold (m, g) f =
          (m ++ " " ++ f.name ++ "=" ++ trimMatchesQuote f.value,
           mapInsert g ("fields." ++ f.name)
             (JsonValue.str (trimMatchesQuote f.value))) := by
        simp [formatFold, h]
      rw [List.foldl_cons, hstep, ih _ _ _ hk,
        mapGet_mapInsert_ne _ _ _ _ (hk f.name)]

theorem foldl_formatFold_get_mem (l : List FieldPair) :
    ∀ (m : String) (g : List (String × JsonValue)) (k : String),
      mapGet (l.foldl formatFold (m, g)).2 k = mapGet g k ∨
      ∃ f, f ∈ l ∧ f.name ≠ "message" ∧ k = "fields." ++ f.name ∧
        mapGet (l.foldl formatFold (m, g)).2 k =
          some (JsonValue.str (trimMatchesQuote f.value)) := by
  induction l with
  | nil => intro m g k; exact Or.inl rfl
  | cons f rest ih =>
    intro m g k
    by_cases h : f.name = "message"
    · have hstep : formatFold (m, g) f = (m, g) := by
        simp [formatFold, h]
      rw [List.foldl_cons, hstep]
      rcases ih m g k with hl | ⟨f', h1, h2, h3, h4⟩
      · exact Or.inl hl
      · exact Or.inr ⟨f', List.mem_cons_of_mem f h1, h2, h3, h4⟩
    · have hstep : formatFold (m, g) f =
          (m ++ " " ++ f.name ++ "=" ++ trimMatchesQuote f.value,
           mapInsert g ("fields." ++ f.name)
             (JsonValue.str (trimMatchesQuote f.value))) := by
        simp [formatFold, h]
      rw [List.foldl_cons, hstep]
      rcases ih (m ++ " " ++ f.name ++ "=" ++ trimMatchesQuote f.value)
          (mapInsert g ("fields." ++ f.name)
            (JsonValue.str (trimMatchesQuote f.value))) k with hl | ⟨f', h1, h2, h3, h4⟩
      · by_cases hk : k = "fields." ++ f.name
        · refine Or.inr ⟨f, List.mem_cons_self f rest, h, hk, ?_⟩
          rw [hl, hk, mapGet_mapInsert_self]
        · rw [hl, mapGet_mapInsert_ne _ _ _ _ hk]
          exact Or.inl rfl
      · exact Or.inr ⟨f', List.mem_cons_of_mem f h1, h2, h3, h4⟩

/-! ## Helper lemmas: key disjointness -/

theorem fieldsKey_ne {s : String} (n : String) (h : s.data.head? ≠ some 'f') :
    "fields." ++ n ≠ s := by
  intro e
  apply h
  rw [← e, String.data_append]
  rfl

theorem fieldsKey_inj {a b : String} (h : "fields." ++ a = "fields." ++ b) :
    a = b := by
  have hd := congrArg String.data h
  rw [String.data_append, String.data_append] at hd
  exact String.ext (List.append_cancel_left hd)

/-! ## Helper lemmas: quote trimming -/

theorem head?_dropWhile_false {p : Char → Bool} : ∀ (l : List Char) {c : Char},
    (l.dropWhile p).head? = some c → p c = false := by
  intro l
  induction l with
  | nil => intro c h; simp [List.dropWhile] at h
  | cons x xs ih =>
    intro c h
    rw [List.dropWhile_cons] at h
    by_cases hp : p x
    · rw [if_pos hp] at h
      exact ih h
    · rw [if_neg hp] at h
      simp only [List.head?_cons, Option.some.injEq] at h
      subst h
      simpa using hp

theorem trimMatchesQuote_spec (s : String) :
    ∃ a b : Nat,
      s.data = List.replicate a '"' ++ (trimMatchesQuote s).data ++ List.replicate b '"'
      ∧ (trimMatchesQuote s).data.head? ≠ some '"'
      ∧ (trimMatchesQuote s).data.getLast? ≠ some '"' := by
  obtain ⟨a, ha⟩ : ∃ a, s.data.takeWhile (fun c => c = '"') = List.replicate a '"' :=
    ⟨_, List.eq_replicate_of_mem (fun x hx => by
      have h := List.mem_takeWhile_imp hx
      simpa using h)⟩
  obtain ⟨b, hb⟩ : ∃ b,
      (s.data.dropWhile (fun c => c = '"')).reverse.takeWhile (fun c => c = '"') =
        List.replicate b '"' :=
    ⟨_, List.eq_replicate_of_mem (fun x hx => by
      have h := List.mem_takeWhile_imp hx
      simpa using h)⟩
  have h1 : s.data.takeWhile (fun c => c = '"') ++ s.data.dropWhile (fun c => c = '"') =
      s.data := List.takeWhile_append_dropWhile _ _
  have hD : s.data.dropWhile (fun c => c = '"') =
      (trimMatchesQuote s).data ++ List.replicate b '"' := by
    have h3 : (s.data.dropWhile (fun c => c = '"')).reverse.takeWhile (fun c => c = '"')
        ++ (s.data.dropWhile (fun c => c = '"')).reverse.dropWhile (fun c => c = '"') =
          (s.data.dropWhile (fun c => c = '"')).reverse :=
      List.takeWhile_append_dropWhile _ _
    have h4 := congrArg List.reverse h3
    rw [List.reverse_append, List.reverse_reverse, hb, List.reverse_replicate] at h4
    exact h4.symm
  refine ⟨a, b, ?_, ?_, ?_⟩
  · conv_lhs => rw [← h1]
    rw [ha, hD]
    simp [List.append_assoc]
  · cases hT : (trimMatchesQuote s).data with
    | nil => simp
    | cons c rest =>
      have hDhead : (s.data.dropWhile (fun c => c = '"')).head? = some c := by
        rw [hD, hT]
        rfl
      have hc := head?_dropWhile_false s.data hDhead
      simp only [List.head?_cons, ne_eq, Option.some.injEq]
      intro hc'
      rw [hc'] at hc
      simp at hc
  · have hTr : (trimMatchesQuote s).data.getLast? =
        ((s.data.dropWhile (fun c => c = '"')).reverse.dropWhile (fun c => c = '"')).head? :=
      List.getLast?_reverse _
    rw [hTr]
    intro hcontra
    have hc := head?_dropWhile_false _ hcontra
    simp at hc

/-! ## Helper lemmas: the stable sort -/

theorem mergeSort_filter_name (fields : List FieldPair) (n : String) :
    (fields.mergeSort fieldLe).filter (fun f => f.name = n) =
      fields.filter (fun f => f.name = n) := by
  have hpw : List.Pairwise (fun a b => fieldLe a b = true)
      (fields.filter (fun f => f.name = n)) := by
    apply List.pairwise_of_forall_mem_list
    intro a ha b hb
    have ha' : a.name = n := by simpa using (List.mem_filter.mp ha).2
    have hb' : b.name = n := by simpa using (List.mem_filter.mp hb).2
    show fieldLe a b = true
    unfold fieldLe
    rw [ha', hb']
    exact strLe_refl n
  have hsub : (fields.filter (fun f => f.name = n)).Sublist (fields.mergeSort fieldLe) :=
    List.sublist_mergeSort fieldLe_trans fieldLe_total hpw (List.filter_sublist fields)
  have hfix : (fields.filter (fun f => f.name = n)).filter (fun f => f.name = n) =
      fields.filter (fun f => f.name = n) :=
    List.filter_eq_self.mpr (fun a ha => (List.mem_filter.mp ha).2)
  have hsub2 : (fields.filter (fun f => f.name = n)).Sublist
      ((fields.mergeSort fieldLe).filter (fun f => f.name = n)) := by
    have h1 := hsub.filter (fun f => decide (f.name = n))
    rwa [hfix] at h1
  have hperm : ((fields.mergeSort fieldLe).filter (fun f => f.name = n)).Perm
      (fields.filter (fun f => f.name = n)) :=
    (List.mergeSort_perm fields fieldLe).filter _
  exact (hsub2.eq_of_length hperm.length_eq.symm).symm

theorem sortedNonMessage_filter_name (fields : List FieldPair) (n : String) :
    (sortedNonMessage fields).filter (fun f => f.name = n) =
      (fields.filter (fun f => f.name ≠ "message")).filter (fun f => f.name = n) := by
  by_cases hn : n = "message"
  · subst hn
    have hnil : ∀ l : List FieldPair,
        ((l.filter (fun f => f.name ≠ "message")).filter
          (fun f => f.name = "message")) = [] := by
      intro l
      rw [List.filter_eq_nil_iff]
      intro f hf
      have h2 : f.name ≠ "message" := by simpa using (List.mem_filter.mp hf).2
      simpa using h2
    rw [hnil, sortedNonMessage, hnil]
  · have key : ∀ l : List FieldPair,
        (l.filter (fun f => f.name ≠ "message")).filter (fun f => f.name = n) =
          l.filter (fun f => f.name = n) := by
      intro l
      rw [List.filter_filter]
      apply List.filter_congr
      intro f _
      by_cases hf : f.name = n
      · have : f.name ≠ "message" := by rw [hf]; exact hn
        simp [hf, this, hn]
      · simp [hf]
    rw [key, sortedNonMessage, key, mergeSort_filter_name]

theorem sortedNonMessage_pairwise (fields : List FieldPair) :
    List.Pairwise (fun a b => fieldLe a b = true) (sortedNonMessage fields) :=
  List.Pairwise.sublist (List.filter_sublist _)
    (List.sorted_mergeSort fieldLe_trans fieldLe_total fields)

theorem sortedNonMessage_length (fields : List FieldPair) :
    (sortedNonMessage fields).length =
      (fields.filter (fun f => f.name ≠ "message")).length :=
  ((List.mergeSort_perm fields fieldLe).filter _).length_eq

/-! ## Helper lemmas: byte arithmetic -/

theorem toBytesBE_length : ∀ w n : Nat, (toBytesBE w n).length = w
  | 0, _ => rfl
  | w + 1, n => by simp [toBytesBE, toBytesBE_length w (n / 256)]

theorem toBytesBE_add (b : Nat) : ∀ a n : Nat,
    toBytesBE (a + b) n = toBytesBE a (n / 256 ^ b) ++ toBytesBE b n := by
  induction b with
  | zero => intro a n; simp [toBytesBE]
  | succ b ih =>
    intro a n
    have h1 : a + (b + 1) = (a + b) + 1 := by omega
    rw [h1]
    show toBytesBE ((a + b) + 1) n = _
    rw [toBytesBE, ih a (n / 256), Nat.div_div_eq_div_mul]
    have h2 : 256 * 256 ^ b = 256 ^ (b + 1) := by rw [Nat.pow_succ]; ring
    rw [h2, List.append_assoc]
    rfl

theorem fromBytesBE_toBytesBE : ∀ w n : Nat, fromBytesBE (toBytesBE w n) = n % 256 ^ w
  | 0, n => by simp [toBytesBE, fromBytesBE, Nat.mod_one]
  | w + 1, n => by
    show fromBytesBE (toBytesBE w (n / 256) ++ [n % 256]) = _
    unfold fromBytesBE
    rw [List.foldl_append]
    show fromBytesBE (toBytesBE w (n / 256)) * 256 + n % 256 = n % 256 ^ (w + 1)
    rw [fromBytesBE_toBytesBE w (n / 256)]
    have h1 : 256 ^ (w + 1) = 256 * 256 ^ w := by rw [Nat.pow_succ]; ring
    rw [h1, Nat.mod_mul]
    omega

theorem ofTraceId_val (t : Nat) : (DatadogTraceId.ofTraceId t).val = t % 2 ^ 64 := by
  simp only [DatadogTraceId.ofTraceId]
  have hsplit : toBytesBE 16 t = toBytesBE 8 (t / 256 ^ 8) ++ toBytesBE 8 t :=
    toBytesBE_add 8 8 t
  rw [hsplit]
  have hd : ((toBytesBE 8 (t / 256 ^ 8) ++ toBytesBE 8 t).drop 8) = toBytesBE 8 t := by
    have h := List.drop_left (toBytesBE 8 (t / 256 ^ 8)) (toBytesBE 8 t)
    rwa [toBytesBE_length] at h
  rw [hd]
  have ht : (toBytesBE 8 t).take 8 = toBytesBE 8 t := by
    have h := List.take_length (toBytesBE 8 t)
    rwa [toBytesBE_length] at h
  rw [ht, fromBytesBE_toBytesBE]
  norm_num

theorem ofSpanId_val (s : Nat) : (DatadogSpanId.ofSpanId s).val = s % 2 ^ 64 := by
  simp only [DatadogSpanId.ofSpanId]
  rw [fromBytesBE_toBytesBE]
  norm_num

/-! ## Helper lemmas: the assembled record -/

theorem baseMap_eq (self : DatadogLog) :
    mapInsert (mapInsert [] "timestamp" (JsonValue.str self.timestamp)) "level"
        (JsonValue.str self.level) =
      [("timestamp", JsonValue.str self.timestamp),
       ("level", JsonValue.str self.level)] := by
  simp [mapInsert]

theorem not_mem_fieldsKeys {k : String} (hk : k.data.head? ≠ some 'f')
    (S : List FieldPair) :
    k ∉ dedupFirst (S.map (fun f => "fields." ++ f.name)) := by
  rw [mem_dedupFirst]
  intro hmem
  obtain ⟨f, _, hf⟩ := List.mem_map.mp hmem
  exact fieldsKey_ne f.name hk hf

theorem format_keys (self : DatadogLog) :
    self.format.map Prod.fst =
      ["timestamp", "level"]
        ++ dedupFirst ((sortedNonMessage self.fields).map (fun f => "fields." ++ f.name))
        ++ ["message", "target"]
        ++ (match self.datadogIds with
            | some _ => ["dd.trace_id", "dd.span_id"]
            | none => []) := by
  have hS : (self.fields.mergeSort fieldLe).filter (fun f => f.name ≠ "message") =
      sortedNonMessage self.fields := rfl
  have hml : (((self.fields.mergeSort fieldLe).foldl formatFold
      (self.message,
        mapInsert (mapInsert [] "timestamp" (JsonValue.str self.timestamp)) "level"
          (JsonValue.str self.level))).2).map Prod.fst =
      ["timestamp", "level"]
        ++ dedupFirst ((sortedNonMessage self.fields).map (fun f => "fields." ++ f.name)) := by
    rw [foldl_formatFold_snd, hS, baseMap_eq]
    have hkeys : ([("timestamp", JsonValue.str self.timestamp),
        ("level", JsonValue.str self.level)].map Prod.fst) = ["timestamp", "level"] := rfl
    rw [hkeys]
    have happ : (["timestamp", "level"] : List String) = ["timestamp", "level"] ++ [] := rfl
    rw [happ, foldl_insertKeys_append]
    · rfl
    · intro k hk
      obtain ⟨f, _, hf⟩ := List.mem_map.mp hk
      intro hmem
      simp only [List.mem_cons, List.not_mem_nil, or_false] at hmem
      rcases hmem with h | h
      · exact fieldsKey_ne f.name (by decide) (hf.trans h)
      · exact fieldsKey_ne f.name (by decide) (hf.trans h)
  have hm : ("message" : String) ∉ ["timestamp", "level"]
      ++ dedupFirst ((sortedNonMessage self.fields).map (fun f => "fields." ++ f.name)) := by
    rw [List.mem_append]
    rintro (h | h)
    · simp at h
    · exact not_mem_fieldsKeys (by decide) _ h
  have ht : ("target" : String) ∉ (["timestamp", "level"]
      ++ dedupFirst ((sortedNonMessage self.fields).map (fun f => "fields." ++ f.name)))
      ++ ["message"] := by
    rw [List.mem_append, List.mem_append]
    rintro ((h | h) | h)
    · simp at h
    · exact not_mem_fieldsKeys (by decide) _ h
    · simp at h
  have htr : ("dd.trace_id" : String) ∉ ((["timestamp", "level"]
      ++ dedupFirst ((sortedNonMessage self.fields).map (fun f => "fields." ++ f.name)))
      ++ ["message"]) ++ ["target"] := by
    rw [List.mem_append, List.mem_append, List.mem_append]
    rintro (((h | h) | h) | h)
    · simp at h
    · exact not_mem_fieldsKeys (by decide) _ h
    · simp at h
    · simp at h
  have hsp : ("dd.span_id" : String) ∉ (((["timestamp", "level"]
      ++ dedupFirst ((sortedNonMessage self.fields).map (fun f => "fields." ++ f.name)))
      ++ ["message"]) ++ ["target"]) ++ ["dd.trace_id"] := by
    rw [List.mem_append, List.mem_append, List.mem_append, List.mem_append]
    rintro ((((h | h) | h) | h) | h)
    · simp at h
    · exact not_mem_fieldsKeys (by decide) _ h
    · simp at h
    · simp at h
    · simp at h
  cases hids : self.datadogIds with
  | none =>
    simp only [DatadogLog.format, hids]
    rw [map_fst_mapInsert, map_fst_mapInsert, hml, insertKeys_of_not_mem hm,
      insertKeys_of_not_mem ht]
    simp [List.append_assoc]
  | some ids =>
    simp only [DatadogLog.format, hids]
    rw [map_fst_mapInsert, map_fst_mapInsert, map_fst_mapInsert, map_fst_mapInsert,
      hml, insertKeys_of_not_mem hm, insertKeys_of_not_mem ht,
      insertKeys_of_not_mem htr, insertKeys_of_not_mem hsp]
    simp [List.append_assoc]

theorem format_message (self : DatadogLog) :
    mapGet self.format "message" =
      some (JsonValue.str (self.message ++ suffixConcat (sortedNonMessage self.fields))) := by
  have hS : (self.fields.mergeSort fieldLe).filter (fun f => f.name ≠ "message") =
      sortedNonMessage self.fields := rfl
  have hfst : ((self.fields.mergeSort fieldLe).foldl formatFold
      (self.message,
        mapInsert (mapInsert [] "timestamp" (JsonValue.str self.timestamp)) "level"
          (JsonValue.str self.level))).1 =
      self.message ++ suffixConcat (sortedNonMessage self.fields) := by
    rw [foldl_formatFold_fst, hS]
  cases hids : self.datadogIds with
  | none =>
    simp only [DatadogLog.format, hids]
    rw [mapGet_mapInsert_ne _ _ _ _ (by decide : ("message" : String) ≠ "target"),
      mapGet_mapInsert_self, hfst]
  | some ids =>
    simp only [DatadogLog.format, hids]
    rw [mapGet_mapInsert_ne _ _ _ _ (by decide : ("message" : String) ≠ "dd.span_id"),
      mapGet_mapInsert_ne _ _ _ _ (by decide : ("message" : String) ≠ "dd.trace_id"),
      mapGet_mapInsert_ne _ _ _ _ (by decide : ("message" : String) ≠ "target"),
      mapGet_mapInsert_self, hfst]

theorem format_fields_get (self : DatadogLog) (f : FieldPair)
    (hf : f ∈ sortedNonMessage self.fields) :
    ∃ g, g ∈ sortedNonMessage self.fields ∧ g.name = f.name ∧
      mapGet self.format ("fields." ++ f.name) =
        some (JsonValue.str (trimMatchesQuote g.value)) := by
  have hS : (self.fields.mergeSort fieldLe).filter (fun f => f.name ≠ "message") =
      sortedNonMessage self.fields := rfl
  have hred : mapGet self.format ("fields." ++ f.name) =
      mapGet ((self.fields.mergeSort fieldLe).foldl formatFold
        (self.message,
          mapInsert (mapInsert [] "timestamp" (JsonValue.str self.timestamp)) "level"
            (JsonValue.str self.level))).2 ("fields." ++ f.name) := by
    cases hids : self.datadogIds with
    | none =>
      simp only [DatadogLog.format, hids]
      rw [mapGet_mapInsert_ne _ _ _ _ (@fieldsKey_ne "target" f.name (by decide)),
        mapGet_mapInsert_ne _ _ _ _ (@fieldsKey_ne "message" f.name (by decide))]
    | some ids =>
      simp only [DatadogLog.format, hids]
      rw [mapGet_mapInsert_ne _ _ _ _ (@fieldsKey_ne "dd.span_id" f.name (by decide)),
        mapGet_mapInsert_ne _ _ _ _ (@fieldsKey_ne "dd.trace_id" f.name (by decide)),
        mapGet_mapInsert_ne _ _ _ _ (@fieldsKey_ne "target" f.name (by decide)),
        mapGet_mapInsert_ne _ _ _ _ (@fieldsKey_ne "message" f.name (by decide))]
  have hmem : ("fields." ++ f.name) ∈
      (((self.fields.mergeSort fieldLe).foldl formatFold
        (self.message,
          mapInsert (mapInsert [] "timestamp" (JsonValue.str self.timestamp)) "level"
            (JsonValue.str self.level))).2).map Prod.fst := by
    rw [foldl_formatFold_snd, hS, baseMap_eq]
    have hkeys : ([("timestamp", JsonValue.str self.timestamp),
        ("level", JsonValue.str self.level)].map Prod.fst) = ["timestamp", "level"] := rfl
    rw [hkeys, mem_foldl_insertKeys]
    right
    exact List.mem_map.mpr ⟨f, hf, rfl⟩
  rcases foldl_formatFold_get_mem (self.fields.mergeSort fieldLe) self.message
      (mapInsert (mapInsert [] "timestamp" (JsonValue.str self.timestamp)) "level"
        (JsonValue.str self.level)) ("fields." ++ f.name) with hl | ⟨f', h1, h2, h3, h4⟩
  · exfalso
    have hnone : mapGet
        (mapInsert (mapInsert [] "timestamp" (JsonValue.str self.timestamp)) "level"
          (JsonValue.str self.level)) ("fields." ++ f.name) = none := by
      rw [baseMap_eq]
      have hn1 : ¬(("timestamp" : String) = "fields." ++ f.name) :=
        Ne.symm (@fieldsKey_ne "timestamp" f.name (by decide))
      have hn2 : ¬(("level" : String) = "fields." ++ f.name) :=
        Ne.symm (@fieldsKey_ne "level" f.name (by decide))
      simp [mapGet, List.find?, hn1, hn2]
    have hnot := (mapGet_eq_none_iff _ _).mp (hl.trans hnone)
    exact hnot hmem
  · refine ⟨f', ?_, (fieldsKey_inj h3).symm, ?_⟩
    · rw [← hS]
      exact List.mem_filter.mpr ⟨h1, by simpa using h2⟩
    · rw [hred]
      exact h4

/-! ## Claim theorems -/

theorem spanId_val_ext {a b : DatadogSpanId} (h : a.val = b.val) : a = b := by
  cases a
  cases b
  cases h
  rfl

/-- C5: the merged attribute sequence handed to the formatter is the
concatenation of every ancestor scope's stored attributes, root scope to
current scope with each store's internal order preserved, followed by the
event's own attributes. -/
theorem claim_C5 :
    (∀ (scopes : List FieldStore) (eventFields : List FieldPair),
      all_fields (some scopes) eventFields =
        specMergedAttributes (scopes.map FieldStore.fields) eventFields)
    ∧ ∀ eventFields : List FieldPair,
        all_fields none eventFields = specMergedAttributes [] eventFields := by
  constructor
  · intro scopes ev
    simp [all_fields, from_spans, specMergedAttributes, List.flatMap_def]
  · intro ev
    simp [all_fields, from_spans, specMergedAttributes]

/-- C6: the correlation identity mapper returns both a trace id and a span
id or neither; an absent tracing context (no current span, or no tracing
data attached) yields none for both, and a context whose span identifier
is the invalid sentinel still yields some span id equal to 0. -/
theorem claim_C6 :
    read_from_context none = (none, none)
    ∧ read_from_context (some none) = (none, none)
    ∧ (∀ o : OtelData, o.builderSpanId = none ∨ o.builderSpanId = some spanIdInvalid →
        read_from_context (some (some o)) =
          (some (DatadogTraceId.ofTraceId o.parentCxTraceId), some ⟨0⟩))
    ∧ ∀ c, (read_from_context c).1.isSome = (read_from_context c).2.isSome := by
  have hz : DatadogSpanId.ofSpanId spanIdInvalid = ⟨0⟩ := by
    apply spanId_val_ext
    rw [ofSpanId_val]
    rfl
  refine ⟨rfl, rfl, ?_, ?_⟩
  · intro o h
    rcases h with h | h <;> simp [read_from_context, h, hz]
  · intro c
    rcases c with _ | (_ | o) <;> rfl

/-- C6 witness: a tracing context with no span id yet assigned still maps
to a present span id 0. -/
theorem claim_C6_witness :
    read_from_context (some (some ⟨5, none⟩)) =
      (some (DatadogTraceId.ofTraceId 5), some ⟨0⟩) :=
  claim_C6.2.2.1 ⟨5, none⟩ (Or.inl rfl)

/-- C7: a record that fails to serialize is replaced by the static
diagnostic string (independent of the error) and the pipeline goes on to
produce its newline-terminated output; a successful serialization passes
through unchanged. -/
theorem claim_C7 (e ok : String) :
    onEventSerialized (Except.error e) = "Failed to serialize an event to json\n"
    ∧ onEventSerialized (Except.ok ok) = ok ++ "\n" :=
  ⟨rfl, rfl⟩

/-- C8: scope attribute store creation is idempotent with first-write-wins
semantics: the store is attached only if none exists, an existing store is
left untouched, and re-running the creation callback changes nothing. -/
theorem claim_C8 :
    (∀ fields : List FieldPair, on_new_span none fields = some ⟨fields⟩)
    ∧ (∀ (s : FieldStore) (fields : List FieldPair),
        on_new_span (some s) fields = some s)
    ∧ ∀ (ext : Option FieldStore) (f g : List FieldPair),
        on_new_span (on_new_span ext f) g = on_new_span ext f := by
  refine ⟨fun _ => rfl, fun _ _ => rfl, ?_⟩
  intro ext f g
  cases ext <;> rfl

/-- C2 (amended): the 64-bit trace id is derived from the least
significant 8 bytes of the 128-bit identifier (bytes 8..16 of its
big-endian representation), i.e. the identifier reduced modulo 2^64. -/
theorem claim_C2 (t : Nat) (h : t < 2 ^ 128) :
    (DatadogTraceId.ofTraceId t).val = t % 2 ^ 64 :=
  ofTraceId_val t

/-- C2 witness at the spec's own example identifier. -/
theorem claim_C2_witness :
    (0x00000000000000010000000000000002 : Nat) < 2 ^ 128
    ∧ (DatadogTraceId.ofTraceId 0x00000000000000010000000000000002).val =
        0x00000000000000010000000000000002 % 2 ^ 64 :=
  ⟨by decide, claim_C2 0x00000000000000010000000000000002 (by decide)⟩

/-- C2 counterexample: on the trace id 2^64 + 2 the code produces 2, while
the most-significant-8-bytes reading demanded by the claim produces 1. -/
theorem claim_C2_counterexample :
    (DatadogTraceId.ofTraceId 0x00000000000000010000000000000002).val = 2
    ∧ specTraceIdMostSignificant8 0x00000000000000010000000000000002 = 1
    ∧ (DatadogTraceId.ofTraceId 0x00000000000000010000000000000002).val ≠
        specTraceIdMostSignificant8 0x00000000000000010000000000000002 := by
  refine ⟨?_, ?_, ?_⟩ <;> decide

/-- C3: the derived 64-bit id is the big-endian interpretation of bytes
8..16 of the identifier's 16-byte big-endian representation, and the trace
id 0x00000000000000010000000000000002 maps to 2. -/
theorem claim_C3 :
    (∀ t : Nat, t < 2 ^ 128 →
      (DatadogTraceId.ofTraceId t).val = fromBytesBE ((toBytesBE 16 t).drop 8))
    ∧ (DatadogTraceId.ofTraceId 0x00000000000000010000000000000002).val = 2 := by
  constructor
  · intro t h
    rw [ofTraceId_val]
    have hsplit : toBytesBE 16 t = toBytesBE 8 (t / 256 ^ 8) ++ toBytesBE 8 t :=
      toBytesBE_add 8 8 t
    rw [hsplit]
    have hd : ((toBytesBE 8 (t / 256 ^ 8) ++ toBytesBE 8 t).drop 8) = toBytesBE 8 t := by
      have hlem := List.drop_left (toBytesBE 8 (t / 256 ^ 8)) (toBytesBE 8 t)
      rwa [toBytesBE_length] at hlem
    rw [hd, fromBytesBE_toBytesBE]
    norm_num
  · rw [ofTraceId_val]
    decide

/-- C3 witness at the spec's example identifier. -/
theorem claim_C3_witness :
    (0x00000000000000010000000000000002 : Nat) < 2 ^ 128
    ∧ (DatadogTraceId.ofTraceId 0x00000000000000010000000000000002).val =
        fromBytesBE ((toBytesBE 16 0x00000000000000010000000000000002).drop 8) :=
  ⟨by decide, claim_C3.1 0x00000000000000010000000000000002 (by decide)⟩

theorem filter_nonMessage_filter_name (l : List FieldPair) (n : String)
    (hn : n ≠ "message") :
    (l.filter (fun f => f.name ≠ "message")).filter (fun f => f.name = n) =
      l.filter (fun f => f.name = n) := by
  rw [List.filter_filter]
  apply List.filter_congr
  intro f _
  by_cases hf : f.name = n
  · have hm : f.name ≠ "message" := by rw [hf]; exact hn
    simp [hf, hm, hn]
  · simp [hf]

/-- C1: the non-message attributes are sorted by name lexicographically
ascending with ties in original order (stable sort), each one appends its
` name=value` suffix to the base message in that order, and N non-message
attributes produce exactly N suffixes. -/
theorem claim_C1 (self : DatadogLog) :
    mapGet self.format "message" =
      some (JsonValue.str (self.message ++ suffixConcat (sortedNonMessage self.fields)))
    ∧ List.Pairwise (fun a b : FieldPair => strLe a.name b.name = true)
        (sortedNonMessage self.fields)
    ∧ (∀ n : String, (sortedNonMessage self.fields).filter (fun f => f.name = n) =
        (self.fields.filter (fun f => f.name ≠ "message")).filter (fun f => f.name = n))
    ∧ (sortedNonMessage self.fields).length =
        (self.fields.filter (fun f => f.name ≠ "message")).length :=
  ⟨format_message self, sortedNonMessage_pairwise self.fields,
    sortedNonMessage_filter_name self.fields, sortedNonMessage_length self.fields⟩

/-- C9: each non-message attribute appends the literal pattern
` name=value` (single leading space, equals sign, no quoting), where the
value has every enclosing double quote stripped from its two ends and
interior double quotes preserved verbatim. -/
theorem claim_C9 (acc : String × List (String × JsonValue)) (f : FieldPair)
    (h : f.name ≠ "message") :
    (formatFold acc f).1 = acc.1 ++ " " ++ f.name ++ "=" ++ trimMatchesQuote f.value
    ∧ ∃ a b : Nat,
        f.value.data = List.replicate a '"' ++ (trimMatchesQuote f.value).data
          ++ List.replicate b '"'
        ∧ (trimMatchesQuote f.value).data.head? ≠ some '"'
        ∧ (trimMatchesQuote f.value).data.getLast? ≠ some '"' := by
  constructor
  · simp [formatFold, h]
  · exact trimMatchesQuote_spec f.value

/-- C9 witness on a quoted value with an interior quote. -/
theorem claim_C9_witness :
    (("user" : String) ≠ "message")
    ∧ ((formatFold ("Hello", []) ⟨"user", "\"Ja\"ck\""⟩).1 =
        "Hello" ++ " " ++ "user" ++ "=" ++ trimMatchesQuote "\"Ja\"ck\""
      ∧ ∃ a b : Nat,
          ("\"Ja\"ck\"" : String).data = List.replicate a '"'
            ++ (trimMatchesQuote "\"Ja\"ck\"").data ++ List.replicate b '"'
          ∧ (trimMatchesQuote "\"Ja\"ck\"").data.head? ≠ some '"'
          ∧ (trimMatchesQuote "\"Ja\"ck\"").data.getLast? ≠ some '"') :=
  ⟨by decide, claim_C9 ("Hello", []) ⟨"user", "\"Ja\"ck\""⟩ (by decide)⟩

/-- C4 (corrected/amended): the emitted JSON object's keys appear in the
fixed order timestamp, level, one `fields.<name>` entry per distinct
non-message attribute name in sorted order (holding, under the same
end-quote-stripping rule, the value of one of the equally-named
attributes), message, target, and, only when correlation ids are present,
dd.trace_id then dd.span_id as the final two keys; the correlation keys
are omitted entirely when absent. -/
theorem claim_C4 (self : DatadogLog) :
    self.format.map Prod.fst =
      ["timestamp", "level"]
        ++ dedupFirst ((sortedNonMessage self.fields).map (fun f => "fields." ++ f.name))
        ++ ["message", "target"]
        ++ (match self.datadogIds with
            | some _ => ["dd.trace_id", "dd.span_id"]
            | none => [])
    ∧ ∀ f ∈ sortedNonMessage self.fields,
        ∃ g ∈ sortedNonMessage self.fields, g.name = f.name ∧
          mapGet self.format ("fields." ++ f.name) =
            some (JsonValue.str (trimMatchesQuote g.value)) := by
  refine ⟨format_keys self, ?_⟩
  intro f hf
  obtain ⟨g, hg1, hg2, hg3⟩ := format_fields_get self f hf
  exact ⟨g, hg1, hg2, hg3⟩

/-- C4 witness: a record with one quoted-value attribute and correlation
ids present. -/
theorem claim_C4_witness :
    ((⟨"a", "\"q\""⟩ : FieldPair) ∈ sortedNonMessage [⟨"a", "\"q\""⟩])
    ∧ ∃ g ∈ sortedNonMessage [⟨"a", "\"q\""⟩],
        g.name = (⟨"a", "\"q\""⟩ : FieldPair).name ∧
        mapGet (DatadogLog.format ⟨"ts", "INFO", "m", [⟨"a", "\"q\""⟩], "tg", some (1, 2)⟩)
            ("fields." ++ (⟨"a", "\"q\""⟩ : FieldPair).name) =
          some (JsonValue.str (trimMatchesQuote g.value)) := by
  have hmem : (⟨"a", "\"q\""⟩ : FieldPair) ∈ sortedNonMessage [⟨"a", "\"q\""⟩] := by
    simp [sortedNonMessage, List.mergeSort_singleton]
  exact ⟨hmem,
    (claim_C4 ⟨"ts", "INFO", "m", [⟨"a", "\"q\""⟩], "tg", some (1, 2)⟩).2
      ⟨"a", "\"q\""⟩ hmem⟩

/-- C4 counterexample: two attributes sharing the name `x` produce a
single `fields.x` key, not one entry per attribute as the claim demands. -/
theorem claim_C4_counterexample :
    (DatadogLog.format ⟨"ts", "INFO", "m", [⟨"x", "1"⟩, ⟨"x", "2"⟩], "tg",
        some (1, 2)⟩).map Prod.fst =
      ["timestamp", "level", "fields.x", "message", "target", "dd.trace_id", "dd.span_id"]
    ∧ (([⟨"x", "1"⟩, ⟨"x", "2"⟩] : List FieldPair).filter
        (fun f => f.name ≠ "message")).length = 2
    ∧ ((DatadogLog.format ⟨"ts", "INFO", "m", [⟨"x", "1"⟩, ⟨"x", "2"⟩], "tg",
        some (1, 2)⟩).map Prod.fst).count "fields.x" ≠ 2 := by
  have hfmt : DatadogLog.format ⟨"ts", "INFO", "m", [⟨"x", "1"⟩, ⟨"x", "2"⟩], "tg",
      some (1, 2)⟩ =
      [("timestamp", JsonValue.str "ts"), ("level", JsonValue.str "INFO"),
       ("fields.x", JsonValue.str "2"), ("message", JsonValue.str "m x=1 x=2"),
       ("target", JsonValue.str "tg"), ("dd.trace_id", JsonValue.num 1),
       ("dd.span_id", JsonValue.num 2)] := by
    unfold DatadogLog.format
    rw [List.mergeSort_of_sorted (by decide)]
    decide
  rw [hfmt]
  exact ⟨rfl, by decide, by decide⟩

/-- C10 (corrected/amended): equally-named attributes are preserved in the
message inlining, each occurrence contributing its own ` name=value`
suffix, but the serialized record holds at most a single `fields.<name>`
entry per name rather than one entry per occurrence. -/
theorem claim_C10 (self : DatadogLog) (n : String) (h : n ≠ "message") :
    mapGet self.format "message" =
      some (JsonValue.str (self.message ++ suffixConcat (sortedNonMessage self.fields)))
    ∧ ((sortedNonMessage self.fields).filter (fun f => f.name = n)).length =
        (self.fields.filter (fun f => f.name = n)).length
    ∧ (self.format.map Prod.fst).count ("fields." ++ n) ≤ 1 := by
  refine ⟨format_message self, ?_, ?_⟩
  · rw [sortedNonMessage_filter_name, filter_nonMessage_filter_name _ _ h]
  · rw [format_keys]
    rw [List.count_append, List.count_append, List.count_append]
    have h1 : List.count ("fields." ++ n) ["timestamp", "level"] = 0 := by
      rw [List.count_eq_zero]
      intro hmem
      simp only [List.mem_cons, List.not_mem_nil, or_false] at hmem
      rcases hmem with hmem | hmem
      · exact fieldsKey_ne n (by decide) hmem
      · exact fieldsKey_ne n (by decide) hmem
    have h2 : List.count ("fields." ++ n) ["message", "target"] = 0 := by
      rw [List.count_eq_zero]
      intro hmem
      simp only [List.mem_cons, List.not_mem_nil, or_false] at hmem
      rcases hmem with hmem | hmem
      · exact fieldsKey_ne n (by decide) hmem
      · exact fieldsKey_ne n (by decide) hmem
    have h3 : List.count ("fields." ++ n)
        (match self.datadogIds with
         | some _ => ["dd.trace_id", "dd.span_id"]
         | none => []) = 0 := by
      cases self.datadogIds with
      | none => rfl
      | some ids =>
        rw [List.count_eq_zero]
        intro hmem
        simp only [List.mem_cons, List.not_mem_nil, or_false] at hmem
        rcases hmem with hmem | hmem
        · exact fieldsKey_ne n (by decide) hmem
        · exact fieldsKey_ne n (by decide) hmem
    have h4 : List.count ("fields." ++ n)
        (dedupFirst ((sortedNonMessage self.fields).map (fun f => "fields." ++ f.name))) ≤ 1 :=
      List.nodup_iff_count_le_one.mp (dedupFirst_nodup _) _
    omega

/-- C10 witness on a single-attribute record. -/
theorem claim_C10_witness :
    (("a" : String) ≠ "message")
    ∧ (mapGet (DatadogLog.format ⟨"ts", "INFO", "m", [⟨"a", "1"⟩], "tg", none⟩)
          "message" =
        some (JsonValue.str ("m" ++ suffixConcat (sortedNonMessage [⟨"a", "1"⟩])))
      ∧ ((sortedNonMessage [⟨"a", "1"⟩]).filter (fun f => f.name = "a")).length =
          (([⟨"a", "1"⟩] : List FieldPair).filter (fun f => f.name = "a")).length
      ∧ ((DatadogLog.format ⟨"ts", "INFO", "m", [⟨"a", "1"⟩], "tg", none⟩).map
          Prod.fst).count ("fields." ++ "a") ≤ 1) :=
  ⟨by decide, claim_C10 ⟨"ts", "INFO", "m", [⟨"a", "1"⟩], "tg", none⟩ "a" (by decide)⟩

/-- C10 counterexample: two attributes named `d` each contribute their own
message suffix, yet the serialized record carries a single `fields.d`
entry, not one per occurrence. -/
theorem claim_C10_counterexample :
    mapGet (DatadogLog.format ⟨"ts", "INFO", "m", [⟨"d", "p"⟩, ⟨"d", "q"⟩], "tg", none⟩)
        "message" = some (JsonValue.str "m d=p d=q")
    ∧ (([⟨"d", "p"⟩, ⟨"d", "q"⟩] : List FieldPair).filter
        (fun f => f.name ≠ "message")).length = 2
    ∧ ((DatadogLog.format ⟨"ts", "INFO", "m", [⟨"d", "p"⟩, ⟨"d", "q"⟩], "tg", none⟩).map
        Prod.fst).count "fields.d" = 1 := by
  have hfmt : DatadogLog.format ⟨"ts", "INFO", "m", [⟨"d", "p"⟩, ⟨"d", "q"⟩], "tg", none⟩ =
      [("timestamp", JsonValue.str "ts"), ("level", JsonValue.str "INFO"),
       ("fields.d", JsonValue.str "q"), ("message", JsonValue.str "m d=p d=q"),
       ("target", JsonValue.str "tg")] := by
    unfold DatadogLog.format
    rw [List.mergeSort_of_sorted (by decide)]
    decide
  rw [hfmt]
  exact ⟨rfl, by decide, by decide⟩
